import Mathlib

/-!
Verification of the directed weighted graph class of graphe.cpp
(class Graphe: adjacency lists, mutation operations, and the
plusCourtChemin shortest-path routine).

Shallow embedding conventions:
- machine integers (size_t, unsigned int) are modelled as Nat; arithmetic
  that can overflow in C++ is taken modulo 2^64 explicitly; the size_t to
  unsigned int truncation at the return of plusCourtChemin is modelled as
  a modulo 2^32;
- a C++ throw is an Except.error; each distinct throw site of graphe.cpp
  gets its own error constructor;
- an out-of-bounds array or vector access, which is undefined behavior in
  C++, is modelled as the distinct error GErr.ub;
- the two DFS-style loops of plusCourtChemin are written with an explicit
  structural fuel parameter so that every definition is executable; the
  fuel bounds chosen at the call sites are proved sufficient below, so the
  fuel-exhaustion branches are unreachable;
- counters of type int or size_t that only count up (cunter, m_nbArcs)
  are plain Nat: the C++ values never approach their wrap-around point in
  any state reachable by the class interface (m_nbArcs is bounded by the
  number of list nodes in memory), so Nat addition and truncated Nat
  subtraction agree with the C++ semantics there.
-/

/-- Error outcomes of the Graphe member functions. One constructor per
throw site of graphe.cpp, plus a marker for undefined behavior. -/
inductive GErr where
  /-- throw sites flagging a vertex index that is out of range -/
  | sommetInexistant
  /-- ajouterArc: valeur de poids interdite -/
  | poidsInterdit
  /-- enleverArc: m_listesAdj[i] est vide -/
  | listeVide
  /-- enleverArc / getPoids: the arc (i,j) does not exist -/
  | arcInexistant
  /-- the bare throw exception() of plusCourtChemin (iteration counter) -/
  | generic
  /-- undefined behavior: out-of-bounds access (no C++ exception) -/
  | ub
deriving DecidableEq, Repr

/-- struct Arc of graphe.h: destination vertex and weight. -/
structure Arc where
  destination : Nat
  poids : Nat
deriving DecidableEq, Repr

/-- class Graphe: vector of adjacency lists plus the running arc count. -/
structure Graphe where
  m_listesAdj : List (List Arc)
  m_nbArcs : Nat
deriving DecidableEq, Repr

/-- numeric_limits of size_t: max value, used as infinity and as the
missing-predecessor sentinel in plusCourtChemin. -/
def INF : Nat := 2 ^ 64 - 1

/-- numeric_limits of unsigned int: max value, the forbidden weight and
the unreachable sentinel of the spec. -/
def UINT_MAX : Nat := 2 ^ 32 - 1

/-- Graphe constructor: p_nbSommets empty adjacency lists, nbArcs = 0. -/
def Graphe.construct (n : Nat) : Graphe :=
  { m_listesAdj := List.replicate n [], m_nbArcs := 0 }

/-- Graphe::getNbSommets. -/
def Graphe.getNbSommets (g : Graphe) : Nat :=
  g.m_listesAdj.length

/-- Graphe::getNbArcs. -/
def Graphe.getNbArcs (g : Graphe) : Nat :=
  g.m_nbArcs

/-- Graphe::resize: when shrinking, first decrease m_nbArcs by the number
of outgoing arcs of every removed vertex, then resize the vector
(truncation, or padding with empty lists when growing). -/
def Graphe.resize (g : Graphe) (t : Nat) : Graphe :=
  if t < g.m_listesAdj.length then
    { m_listesAdj := g.m_listesAdj.take t,
      m_nbArcs := g.m_nbArcs - ((g.m_listesAdj.drop t).map List.length).sum }
  else
    { m_listesAdj := g.m_listesAdj ++ List.replicate (t - g.m_listesAdj.length) [],
      m_nbArcs := g.m_nbArcs }

/-- Graphe::ajouterArc: bounds checks on i and j, forbidden-weight check,
then emplace_back of Arc(j, poids) and increment of m_nbArcs. -/
def Graphe.ajouterArc (g : Graphe) (i j poids : Nat) : Except GErr Graphe :=
  if i ≥ g.m_listesAdj.length then .error .sommetInexistant
  else if j ≥ g.m_listesAdj.length then .error .sommetInexistant
  else if poids = UINT_MAX then .error .poidsInterdit
  else .ok { m_listesAdj := g.m_listesAdj.set i ((g.m_listesAdj.getD i []) ++ [⟨j, poids⟩]),
             m_nbArcs := g.m_nbArcs + 1 }

/-- the reverse-iterator scan of Graphe::enleverArc: starting from the end
of the list, erase the first arc found whose destination is j; none when
no arc matches. Checking the tail first makes this remove the last
(most recently inserted) matching arc. -/
def enleverDernier (l : List Arc) (j : Nat) : Option (List Arc) :=
  match l with
  | [] => none
  | a :: rest =>
    match enleverDernier rest j with
    | some rest' => some (a :: rest')
    | none => if a.destination = j then some rest else none

/-- Graphe::enleverArc: bounds checks on i and j, empty-list check, then
the backward scan; decrement of m_nbArcs on success. -/
def Graphe.enleverArc (g : Graphe) (i j : Nat) : Except GErr Graphe :=
  if i ≥ g.m_listesAdj.length then .error .sommetInexistant
  else if j ≥ g.m_listesAdj.length then .error .sommetInexistant
  else if g.m_listesAdj.getD i [] = [] then .error .listeVide
  else
    match enleverDernier (g.m_listesAdj.getD i []) j with
    | some l' => .ok { m_listesAdj := g.m_listesAdj.set i l', m_nbArcs := g.m_nbArcs - 1 }
    | none => .error .arcInexistant

/-- the forward scan of Graphe::getPoids: weight of the first arc whose
destination is j. -/
def chercherPoids (l : List Arc) (j : Nat) : Except GErr Nat :=
  match l with
  | [] => .error .arcInexistant
  | a :: rest => if a.destination = j then .ok a.poids else chercherPoids rest j

/-- Graphe::getPoids: bounds check on i only, then the forward scan. -/
def Graphe.getPoids (g : Graphe) (i j : Nat) : Except GErr Nat :=
  if i ≥ g.m_listesAdj.length then .error .sommetInexistant
  else chercherPoids (g.m_listesAdj.getD i []) j

/-!
plusCourtChemin of graphe.cpp. The routine first builds a DFS post-order
of all vertices (Graphe::topologicalSortUtil pushing onto a std::stack),
then relaxes the outgoing arcs of the vertices in stack order, with an
iteration counter that throws a bare exception() past 150000 iterations,
then rebuilds the path from the predecesseur array (with the same counter
guard), appends it to p_chemin, and returns dist[p_destination] truncated
from size_t to unsigned int. The traversal state is the pair of the
visited array and the stack contents (head = top of stack).
-/

/-- inner for-loop of Graphe::topologicalSortUtil over the adjacency list
of the current vertex: for each arc, if the destination is not yet
visited, recurse into it (the recursive call is passed as the parameter
visite). Reading visited[destination] out of bounds is UB. -/
def topoArcsGo (visite : Nat → List Bool × List Nat → Except GErr (List Bool × List Nat)) :
    List Arc → List Bool × List Nat → Except GErr (List Bool × List Nat)
  | [], st => .ok st
  | a :: rest, st =>
    match st.1[a.destination]? with
    | none => .error .ub
    | some b =>
      if b then topoArcsGo visite rest st
      else
        match visite a.destination st with
        | .error e => .error e
        | .ok st' => topoArcsGo visite rest st'

/-- Graphe::topologicalSortUtil: mark v visited, recurse into the
unvisited arc destinations, then push v on the stack. The fuel argument
only makes the recursion structural; every call site passes enough fuel
(one more than the number of unvisited vertices, see
topologicalSortUtil_spec), so the fuel-0 branch is dead code. Writing
visited[v] or reading m_listesAdj[v] out of bounds is UB. -/
def topologicalSortUtil (g : Graphe) : Nat → Nat → List Bool × List Nat →
    Except GErr (List Bool × List Nat)
  | 0, _, _ => .error .ub
  | fuel + 1, v, st =>
    match st.1[v]?, g.m_listesAdj[v]? with
    | some _, some arcs =>
      match topoArcsGo (fun w s => topologicalSortUtil g fuel w s) arcs
          (st.1.set v true, st.2) with
      | .error e => .error e
      | .ok st' => .ok (st'.1, v :: st'.2)
    | _, _ => .error .ub

/-- the loop of plusCourtChemin calling topologicalSortUtil on every not
yet visited vertex index. -/
def topoLoop (g : Graphe) : List Nat → List Bool × List Nat →
    Except GErr (List Bool × List Nat)
  | [], st => .ok st
  | i :: rest, st =>
    match st.1[i]? with
    | none => .error .ub
    | some b =>
      if b then topoLoop g rest st
      else
        match topologicalSortUtil g (g.m_listesAdj.length + 1) i st with
        | .error e => .error e
        | .ok st' => topoLoop g rest st'

/-- the inner relaxation loop of plusCourtChemin over the adjacency list
of the popped vertex u: dist[destination] > dist[u] + poids (size_t
arithmetic, hence modulo 2^64) triggers an update of dist and
predecesseur. dist[u] is re-read at every iteration as in the source. -/
def relaxArcs (u : Nat) : List Arc → List Nat → List Nat →
    Except GErr (List Nat × List Nat)
  | [], dist, pred => .ok (dist, pred)
  | a :: rest, dist, pred =>
    match dist[a.destination]?, dist[u]? with
    | some dd, some du =>
      if dd > (du + a.poids) % 2 ^ 64 then
        relaxArcs u rest (dist.set a.destination ((du + a.poids) % 2 ^ 64))
          (pred.set a.destination u)
      else relaxArcs u rest dist pred
    | _, _ => .error .ub

/-- the main while-loop of plusCourtChemin: pop the stack, relax the arcs
of the popped vertex when its distance is not INF, then increment cunter
and throw the generic exception when it passes 150000. -/
def processStack (g : Graphe) : List Nat → List Nat → List Nat → Nat →
    Except GErr (List Nat × List Nat)
  | [], dist, pred, _ => .ok (dist, pred)
  | u :: rest, dist, pred, cunter =>
    match dist[u]? with
    | none => .error .ub
    | some du =>
      match (if du ≠ INF then
              match g.m_listesAdj[u]? with
              | none => .error .ub
              | some arcs => relaxArcs u arcs dist pred
            else .ok (dist, pred) : Except GErr (List Nat × List Nat)) with
      | .error e => .error e
      | .ok dp =>
        if cunter + 1 > 150000 then .error .generic
        else processStack g rest dp.1 dp.2 (cunter + 1)

/-- the path-reconstruction loop of plusCourtChemin: follow predecesseur
from numero while it is not the SIZE_MAX sentinel, pushing each vertex on
pileDuChemin (head = top), guarded by the same 150000 counter. The fuel
argument makes the recursion structural; the call site passes 150001,
which the counter guard makes sufficient (the fuel-0 branch is dead
code). Reading predecesseur[numero] out of bounds is UB. -/
def remonterChemin (pred : List Nat) : Nat → Nat → List Nat → Nat →
    Except GErr (List Nat)
  | fuel, numero, pile, cunter =>
    match pred[numero]? with
    | none => .error .ub
    | some p =>
      if p = INF then .ok pile
      else
        if cunter + 1 > 150000 then .error .generic
        else
          match fuel with
          | 0 => .error .ub
          | fuel + 1 => remonterChemin pred fuel p (p :: pile) (cunter + 1)

/-- Graphe::plusCourtChemin: DFS post-order of all vertices, distance
array all INF except dist[p_origine] = 0 (an out-of-range p_origine makes
this write UB), relaxation in stack order with the 150000-iteration
guard, in-bounds read of predecesseur[p_origine] (the cout), path
reconstruction from p_destination, append of the path to p_chemin, and
return of dist[p_destination] truncated to unsigned int. -/
def Graphe.plusCourtChemin (g : Graphe) (p_origine p_destination : Nat)
    (p_chemin : List Nat) : Except GErr (Nat × List Nat) :=
  match topoLoop g (List.range g.m_listesAdj.length)
      (List.replicate g.m_listesAdj.length false, []) with
  | .error e => .error e
  | .ok st =>
    if p_origine < g.m_listesAdj.length then
      match processStack g st.2
          ((List.replicate g.m_listesAdj.length INF).set p_origine 0)
          (List.replicate g.m_listesAdj.length INF) 0 with
      | .error e => .error e
      | .ok dp =>
        match dp.2[p_origine]? with
        | none => .error .ub
        | some _ =>
          match remonterChemin dp.2 150001 p_destination [p_destination] 0 with
          | .error e => .error e
          | .ok pile =>
            match dp.1[p_destination]? with
            | none => .error .ub
            | some dd => .ok (dd % 2 ^ 32, p_chemin ++ pile)
    else .error .ub

/-!
Reference model of the shortest-path contract as the specification
describes it (section 4.2), for the refinement claim: a label-setting
Dijkstra relaxation with a lazy-deletion min-priority queue, early exit
when the destination is popped, and the 0 / single-vertex conventions of
the contract. This is the one definition of the file written from the
words of the spec rather than from graphe.cpp.
-/

/-- pop of the min-priority queue of the spec model: remove an entry with
minimal first component (tentative distance) from the queue list. -/
def popMin : List (Nat × Nat) → Option ((Nat × Nat) × List (Nat × Nat))
  | [] => none
  | e :: rest =>
    match popMin rest with
    | none => some (e, rest)
    | some (m, rest') => if e.1 ≤ m.1 then some (e, rest) else some (m, e :: rest')

/-- Modelled from the spec: one relaxation pass of the Dijkstra reference
over the outgoing arcs of u, skipping visited targets, updating distance
and predecessor and pushing on strict improvement. -/
def dijkstraRelax (u du : Nat) (visited : List Bool) :
    List Arc → List (Nat × Nat) × List (Option Nat) × List (Option Nat) →
    List (Nat × Nat) × List (Option Nat) × List (Option Nat)
  | [], s => s
  | a :: rest, (queue, dist, pred) =>
    if visited.getD a.destination false then dijkstraRelax u du visited rest (queue, dist, pred)
    else
      match dist.getD a.destination none with
      | none =>
        dijkstraRelax u du visited rest
          (queue ++ [(du + a.poids, a.destination)],
           dist.set a.destination (some (du + a.poids)),
           pred.set a.destination (some u))
      | some dd =>
        if du + a.poids < dd then
          dijkstraRelax u du visited rest
            (queue ++ [(du + a.poids, a.destination)],
             dist.set a.destination (some (du + a.poids)),
             pred.set a.destination (some u))
        else dijkstraRelax u du visited rest (queue, dist, pred)

/-- Modelled from the spec: the main Dijkstra loop. Pop the minimum
entry; stop as soon as the destination is popped (before marking it
visited, so its outgoing arcs are never relaxed); skip stale entries
whose vertex is already visited; otherwise mark visited and relax. The
fuel bounds the number of pops; the caller passes more fuel than the
queue can ever hold entries. -/
def dijkstraLoop (g : Graphe) (dest : Nat) :
    Nat → List (Nat × Nat) → List (Option Nat) → List Bool → List (Option Nat) →
    List (Option Nat) × List (Option Nat)
  | 0, _, dist, _, pred => (dist, pred)
  | fuel + 1, queue, dist, visited, pred =>
    match popMin queue with
    | none => (dist, pred)
    | some ((_, u), queue') =>
      if u = dest then (dist, pred)
      else if visited.getD u false then dijkstraLoop g dest fuel queue' dist visited pred
      else
        match dijkstraRelax u ((dist.getD u none).getD 0) (visited.set u true)
            (g.m_listesAdj.getD u []) (queue', dist, pred) with
        | (queue'', dist', pred') =>
          dijkstraLoop g dest fuel queue'' dist' (visited.set u true) pred'

/-- Modelled from the spec: walk the predecessor array backward from the
destination, producing the path origin first. Fuel bounds the walk. -/
def dijkstraChemin (pred : List (Option Nat)) : Nat → Nat → List Nat → List Nat
  | 0, cur, acc => cur :: acc
  | fuel + 1, cur, acc =>
    match pred.getD cur none with
    | none => cur :: acc
    | some p => dijkstraChemin pred fuel p (cur :: acc)

/-- Modelled from the spec, section 4.2: the complete shortestPath
contract. Invalid-vertex failure when origin or destination is out of
range; (0, [destination]) without search when origin = destination; the
reserved unreachable sentinel (max of the weight type) with path
[destination] when the destination was never reached; otherwise the
distance of the destination and the reconstructed path. -/
def dijkstraSpecModel (g : Graphe) (origine dest : Nat) : Except GErr (Nat × List Nat) :=
  if origine ≥ g.m_listesAdj.length then .error .sommetInexistant
  else if dest ≥ g.m_listesAdj.length then .error .sommetInexistant
  else if origine = dest then .ok (0, [dest])
  else
    match dijkstraLoop g dest (((g.m_listesAdj.map List.length).sum + 2) * 2)
        [(0, origine)]
        ((List.replicate g.m_listesAdj.length none).set origine (some 0))
        (List.replicate g.m_listesAdj.length false)
        (List.replicate g.m_listesAdj.length none) with
    | (dist, pred) =>
      match pred.getD dest none with
      | none => .ok (UINT_MAX, [dest])
      | some _ =>
        .ok ((dist.getD dest none).getD 0,
             dijkstraChemin pred (g.m_listesAdj.length + 1) dest [])

/-- existence of a directed path of total weight w from u to x in the
graph, following arcs of the adjacency lists. -/
inductive CheminPoids (g : Graphe) : Nat → Nat → Nat → Prop where
  | nil (u : Nat) : CheminPoids g u u 0
  | cons (u : Nat) {x c : Nat} (a : Arc) (ha : a ∈ g.m_listesAdj.getD u [])
      (h : CheminPoids g a.destination x c) : CheminPoids g u x (a.poids + c)

/-- mutation operations of the class interface, for invariant claims over
arbitrary operation sequences. -/
inductive Op where
  | redim (t : Nat)
  | ajouter (i j poids : Nat)
  | enlever (i j : Nat)

/-- apply one operation; a failing operation (C++ throw) leaves the graph
unchanged, since every throw of graphe.cpp happens before any mutation. -/
def applyOp (g : Graphe) (op : Op) : Graphe :=
  match op with
  | .redim t => g.resize t
  | .ajouter i j poids =>
    match g.ajouterArc i j poids with
    | .ok g' => g'
    | .error _ => g
  | .enlever i j =>
    match g.enleverArc i j with
    | .ok g' => g'
    | .error _ => g

/-- apply a sequence of operations from left to right. -/
def applyOps (g : Graphe) (ops : List Op) : Graphe :=
  ops.foldl applyOp g

/-- the arc-count invariant of the data model: m_nbArcs equals the sum of
the adjacency-list lengths. -/
abbrev bonCompteArcs (g : Graphe) : Prop :=
  g.m_nbArcs = (g.m_listesAdj.map List.length).sum

/-- well-formed adjacency structure: every stored arc points to an
existing vertex (no dangling destinations). -/
abbrev sommetsValides (g : Graphe) : Prop :=
  ∀ l ∈ g.m_listesAdj, ∀ a ∈ l, a.destination < g.m_listesAdj.length

/-- concrete three-vertex cyclic graph 0 -> 1 -> 2 -> 0, each arc of
weight 1: the cycle makes the DFS-post-order relaxation of
plusCourtChemin unsound. -/
def grapheCyclique : Graphe :=
  { m_listesAdj := [[⟨1, 1⟩], [⟨2, 1⟩], [⟨0, 1⟩]], m_nbArcs := 3 }

/-- concrete graph with three parallel-ish arcs out of vertex 0: two arcs
to vertex 1 (weights 5 then 6) around one arc to vertex 2, for the
removal / lookup tie-break policies. -/
def grapheParallele : Graphe :=
  { m_listesAdj := [[⟨1, 5⟩, ⟨2, 7⟩, ⟨1, 6⟩], [], []], m_nbArcs := 3 }

/-- number of vertices still marked unvisited, the measure of the DFS. -/
def countFalse : List Bool → Nat
  | [] => 0
  | b :: rest => (if b then 0 else 1) + countFalse rest

/-- relation between a DFS traversal state and a later one, for a graph
with n vertices: the visited array keeps its length, visited marks only
accumulate, the stack grows by exactly one entry per newly visited
vertex, and every new stack entry is a valid vertex. -/
def TopoPost (n : Nat) (st st' : List Bool × List Nat) : Prop :=
  st'.1.length = st.1.length ∧
  countFalse st'.1 ≤ countFalse st.1 ∧
  st'.2.length + countFalse st'.1 = st.2.length + countFalse st.1 ∧
  (∀ k : Nat, st.1[k]? = some true → st'.1[k]? = some true) ∧
  (∀ x ∈ st'.2, x < n ∨ x ∈ st.2)

/-!
Theorems. Helper lemmas come first, then one theorem per claim (with
counterexample and witness theorems where the claim status needs them).
-/

/-- helper: the cyclic graph has a directed path of weight 2 from vertex
2 to vertex 1, namely 2 -> 0 -> 1. -/
theorem cheminCyclique_2_1 : CheminPoids grapheCyclique 2 1 2 := by
  have h1 : (⟨0, 1⟩ : Arc) ∈ grapheCyclique.m_listesAdj.getD 2 [] := by decide
  have h2 : (⟨1, 1⟩ : Arc) ∈ grapheCyclique.m_listesAdj.getD 0 [] := by decide
  have h := CheminPoids.cons (g := grapheCyclique) 2 ⟨0, 1⟩ h1
    (CheminPoids.cons 0 ⟨1, 1⟩ h2 (CheminPoids.nil 1))
  simpa using h

/-- C1: the claim says plusCourtChemin returns the minimum path weight
whenever the destination is reachable. Evaluation of the code at the
cyclic graph refutes this: vertex 1 is reachable from vertex 2 with total
weight 2, yet the routine returns the unreachable sentinel UINT_MAX with
path [1]. -/
theorem C1_evaluation :
    CheminPoids grapheCyclique 2 1 2 ∧
    Graphe.plusCourtChemin grapheCyclique 2 1 [] = .ok (UINT_MAX, [1]) :=
  ⟨cheminCyclique_2_1, rfl⟩

/-- C2: the claim says the implementation computes the same result as the
Dijkstra reference of the spec. At the cyclic graph, query (2,1), the
code returns the unreachable sentinel and path [1] while the spec model
returns distance 2 and path [2, 0, 1]. -/
theorem C2_evaluation :
    Graphe.plusCourtChemin grapheCyclique 2 1 [] = .ok (UINT_MAX, [1]) ∧
    dijkstraSpecModel grapheCyclique 2 1 = .ok (2, [2, 0, 1]) :=
  ⟨rfl, rfl⟩

/-- C3: the claim says plusCourtChemin fails with the invalid-vertex
error when origin is out of range. On a one-vertex graph with origin 5
the code instead runs the full DFS and then accesses dist[5] out of
bounds (undefined behavior, GErr.ub), never raising sommetInexistant. -/
theorem C3_evaluation :
    Graphe.plusCourtChemin (Graphe.construct 1) 5 0 [] = .error .ub ∧
    GErr.ub ≠ GErr.sommetInexistant :=
  ⟨rfl, by decide⟩

/-- C4: the claim says the sentinel distance with path [destination] is
returned if and only if no directed path exists. At the cyclic graph a
path from 2 to 1 exists, yet the code returns the sentinel UINT_MAX and
path [1]: the only-if direction fails. -/
theorem C4_evaluation :
    (∃ w, CheminPoids grapheCyclique 2 1 w) ∧
    Graphe.plusCourtChemin grapheCyclique 2 1 [] = .ok (UINT_MAX, [1]) :=
  ⟨⟨2, cheminCyclique_2_1⟩, rfl⟩

/-- C6 counterexample: scenario C of the claim. After adding the two
parallel arcs (0,1,5) and removing them both, the third removeArc fails
with the empty-adjacency error listeVide, not with arcInexistant as the
claim states. -/
theorem C6_counterexample :
    Except.bind (Except.bind (Except.bind (Except.bind
        ((Graphe.construct 2).ajouterArc 0 1 5)
        (fun g => g.ajouterArc 0 1 5))
      (fun g => g.enleverArc 0 1))
        (fun g => g.enleverArc 0 1))
      (fun g => g.enleverArc 0 1) = .error .listeVide ∧
    GErr.listeVide ≠ GErr.arcInexistant :=
  ⟨rfl, by decide⟩

/-- C10: plusCourtChemin appends to the caller-supplied output sequence:
for every graph, vertices and initial content p_chemin, the result equals
the result of the empty-initial-content call with p_chemin prepended to
the path component (errors are unaffected). -/
theorem C10_chemin_append (g : Graphe) (p_origine p_destination : Nat) (p_chemin : List Nat) :
    g.plusCourtChemin p_origine p_destination p_chemin =
      (g.plusCourtChemin p_origine p_destination []).map
        (fun r => (r.1, p_chemin ++ r.2)) := by
  unfold Graphe.plusCourtChemin
  cases htopo : topoLoop g (List.range g.m_listesAdj.length)
      (List.replicate g.m_listesAdj.length false, []) with
  | error e => rfl
  | ok st =>
    by_cases ho : p_origine < g.m_listesAdj.length
    · simp only [if_pos ho]
      cases hps : processStack g st.2
          ((List.replicate g.m_listesAdj.length INF).set p_origine 0)
          (List.replicate g.m_listesAdj.length INF) 0 with
      | error e => rfl
      | ok dp =>
        cases hget : dp.2[p_origine]? with
        | none => simp [hget, Except.map]
        | some x =>
          cases hrem : remonterChemin dp.2 150001 p_destination [p_destination] 0 with
          | error e => simp [hget, hrem, Except.map]
          | ok pile =>
            cases hdd : dp.1[p_destination]? with
            | none => simp [hget, hrem, hdd, Except.map]
            | some dd => simp [hget, hrem, hdd, Except.map]
    · simp only [if_neg ho]
      rfl

/-- helper: the total of the per-list lengths after replacing entry i,
related to the total before. -/
theorem sum_map_length_set (l : List (List Arc)) (i : Nat) (x : List Arc)
    (hi : i < l.length) :
    ((l.set i x).map List.length).sum + (l.getD i []).length =
      (l.map List.length).sum + x.length := by
  induction l generalizing i with
  | nil => simp at hi
  | cons a rest ih =>
    cases i with
    | zero =>
      simp only [List.set, List.map_cons, List.sum_cons, List.getD_cons_zero]
      omega
    | succ i =>
      have hi' : i < rest.length := by simpa using hi
      have hrec := ih i hi'
      simp only [List.set, List.map_cons, List.sum_cons, List.getD_cons_succ]
      omega

/-- helper: a successful backward removal shortens the list by one. -/
theorem enleverDernier_length (l : List Arc) (j : Nat) (l' : List Arc)
    (h : enleverDernier l j = some l') : l'.length + 1 = l.length := by
  induction l generalizing l' with
  | nil => simp [enleverDernier] at h
  | cons a rest ih =>
    simp only [enleverDernier] at h
    cases hrest : enleverDernier rest j with
    | some rest' =>
      rw [hrest] at h
      cases h
      have hrec := ih rest' hrest
      simp only [List.length_cons]
      omega
    | none =>
      rw [hrest] at h
      by_cases hd : a.destination = j
      · rw [if_pos hd] at h
        cases h
        simp
      · rw [if_neg hd] at h
        cases h

/-- helper: the lengths of a replicated empty list sum to zero. -/
theorem sum_map_length_replicate_nil (k : Nat) :
    ((List.replicate k ([] : List Arc)).map List.length).sum = 0 := by
  induction k with
  | zero => simp
  | succ k ih => simp [List.replicate_succ, ih]

/-- helper: the arc-count invariant holds for every constructed graph. -/
theorem bonCompteArcs_construct (n : Nat) : bonCompteArcs (Graphe.construct n) := by
  show (0 : Nat) = _
  rw [Graphe.construct, sum_map_length_replicate_nil]

/-- helper: resize preserves the arc-count invariant. -/
theorem bonCompteArcs_resize (g : Graphe) (t : Nat) (h : bonCompteArcs g) :
    bonCompteArcs (g.resize t) := by
  rw [bonCompteArcs] at h
  unfold Graphe.resize
  by_cases ht : t < g.m_listesAdj.length
  · rw [if_pos ht]
    show g.m_nbArcs - ((g.m_listesAdj.drop t).map List.length).sum =
      ((g.m_listesAdj.take t).map List.length).sum
    have hsplit : (g.m_listesAdj.map List.length).sum =
        ((g.m_listesAdj.take t).map List.length).sum +
        ((g.m_listesAdj.drop t).map List.length).sum := by
      conv_lhs => rw [← List.take_append_drop t g.m_listesAdj]
      simp
    omega
  · rw [if_neg ht]
    show g.m_nbArcs =
      ((g.m_listesAdj ++ List.replicate (t - g.m_listesAdj.length) []).map List.length).sum
    rw [List.map_append, List.sum_append, sum_map_length_replicate_nil, h]
    omega

/-- helper: applying an addArc operation preserves the arc-count
invariant, whether the operation succeeds or throws. -/
theorem bonCompteArcs_ajouterArc (g : Graphe) (i j poids : Nat) (h : bonCompteArcs g) :
    bonCompteArcs (applyOp g (.ajouter i j poids)) := by
  simp only [applyOp]
  cases hadd : g.ajouterArc i j poids with
  | error e => exact h
  | ok g' =>
    unfold Graphe.ajouterArc at hadd
    by_cases hi : i ≥ g.m_listesAdj.length
    · rw [if_pos hi] at hadd
      exact Except.noConfusion hadd
    · rw [if_neg hi] at hadd
      by_cases hj : j ≥ g.m_listesAdj.length
      · rw [if_pos hj] at hadd
        exact Except.noConfusion hadd
      · rw [if_neg hj] at hadd
        by_cases hp : poids = UINT_MAX
        · rw [if_pos hp] at hadd
          exact Except.noConfusion hadd
        · rw [if_neg hp] at hadd
          cases hadd
          have hs := sum_map_length_set g.m_listesAdj i
            ((g.m_listesAdj.getD i []) ++ [⟨j, poids⟩]) (by omega)
          rw [List.length_append] at hs
          rw [bonCompteArcs] at h
          show g.m_nbArcs + 1 =
            ((g.m_listesAdj.set i ((g.m_listesAdj.getD i []) ++ [⟨j, poids⟩])).map
              List.length).sum
          simp only [List.length_cons, List.length_nil] at hs
          omega

/-- helper: applying a removeArc operation preserves the arc-count
invariant, whether the operation succeeds or throws. -/
theorem bonCompteArcs_enleverArc (g : Graphe) (i j : Nat) (h : bonCompteArcs g) :
    bonCompteArcs (applyOp g (.enlever i j)) := by
  simp only [applyOp]
  cases hrem : g.enleverArc i j with
  | error e => exact h
  | ok g' =>
    unfold Graphe.enleverArc at hrem
    by_cases hi : i ≥ g.m_listesAdj.length
    · rw [if_pos hi] at hrem
      exact Except.noConfusion hrem
    · rw [if_neg hi] at hrem
      by_cases hj : j ≥ g.m_listesAdj.length
      · rw [if_pos hj] at hrem
        exact Except.noConfusion hrem
      · rw [if_neg hj] at hrem
        by_cases hl : g.m_listesAdj.getD i [] = []
        · rw [if_pos hl] at hrem
          exact Except.noConfusion hrem
        · rw [if_neg hl] at hrem
          cases hrm : enleverDernier (g.m_listesAdj.getD i []) j with
          | none =>
            rw [hrm] at hrem
            exact Except.noConfusion hrem
          | some l' =>
            rw [hrm] at hrem
            cases hrem
            have hlen := enleverDernier_length _ _ _ hrm
            have hs := sum_map_length_set g.m_listesAdj i l' (by omega)
            rw [bonCompteArcs] at h
            show g.m_nbArcs - 1 = ((g.m_listesAdj.set i l').map List.length).sum
            omega

/-- C5: starting from any constructed graph, every sequence of resize,
addArc and removeArc operations preserves the invariant that arcCount
equals the sum of the per-vertex adjacency-list lengths. -/
theorem C5_arcCount_invariant (n : Nat) (ops : List Op) :
    bonCompteArcs (applyOps (Graphe.construct n) ops) := by
  have hstep : ∀ g op, bonCompteArcs g → bonCompteArcs (applyOp g op) := by
    intro g op hg
    cases op with
    | redim t => exact bonCompteArcs_resize g t hg
    | ajouter i j poids => exact bonCompteArcs_ajouterArc g i j poids hg
    | enlever i j => exact bonCompteArcs_enleverArc g i j hg
  have hfold : ∀ (l : List Op) (g : Graphe), bonCompteArcs g →
      bonCompteArcs (l.foldl applyOp g) := by
    intro l
    induction l with
    | nil => intro g hg; simpa using hg
    | cons op rest ih =>
      intro g hg
      simpa using ih (applyOp g op) (hstep g op hg)
  exact hfold ops (Graphe.construct n) (bonCompteArcs_construct n)

/-- helper: the backward scan finds nothing when no arc matches. -/
theorem enleverDernier_none (l : List Arc) (j : Nat)
    (h : ∀ a ∈ l, a.destination ≠ j) : enleverDernier l j = none := by
  induction l with
  | nil => rfl
  | cons a rest ih =>
    simp only [enleverDernier]
    rw [ih (fun a ha => h a (List.mem_cons_of_mem _ ha))]
    rw [if_neg (h a (List.mem_cons_self a rest))]

/-- helper: when index k holds the last matching arc, the backward scan
removes exactly that entry. -/
theorem enleverDernier_last_match (l : List Arc) (j : Nat) (k : Nat)
    (hk : k < l.length) (hmatch : (l.get ⟨k, hk⟩).destination = j)
    (hlast : ∀ m (hm : m < l.length), k < m → (l.get ⟨m, hm⟩).destination ≠ j) :
    enleverDernier l j = some (l.take k ++ l.drop (k + 1)) := by
  induction l generalizing k with
  | nil => simp at hk
  | cons a rest ih =>
    cases k with
    | zero =>
      have hnone : enleverDernier rest j = none := by
        apply enleverDernier_none
        intro b hb
        obtain ⟨⟨m, hm⟩, hbm⟩ := List.mem_iff_get.mp hb
        have hne := hlast (m + 1) (by simp only [List.length_cons]; omega) (Nat.succ_pos m)
        rw [List.get_cons_succ] at hne
        rw [← hbm]
        exact hne
      simp only [enleverDernier, hnone]
      rw [if_pos (by simpa using hmatch)]
      simp
    | succ k =>
      have hk' : k < rest.length := by simpa using hk
      have hsome : enleverDernier rest j = some (rest.take k ++ rest.drop (k + 1)) := by
        apply ih k hk' (by simpa using hmatch)
        intro m hm hkm
        have := hlast (m + 1) (by simpa using hm) (by omega)
        simpa using this
      simp only [enleverDernier, hsome]
      simp

/-- helper: when index k holds the first matching arc, the forward scan
of getPoids returns the weight stored there. -/
theorem chercherPoids_first_match (l : List Arc) (j : Nat) (k : Nat)
    (hk : k < l.length) (hmatch : (l.get ⟨k, hk⟩).destination = j)
    (hfirst : ∀ m (hm : m < l.length), m < k → (l.get ⟨m, hm⟩).destination ≠ j) :
    chercherPoids l j = .ok (l.get ⟨k, hk⟩).poids := by
  induction l generalizing k with
  | nil => simp at hk
  | cons a rest ih =>
    cases k with
    | zero =>
      simp only [chercherPoids]
      rw [if_pos (by simpa using hmatch)]
      simp
    | succ k =>
      have hk' : k < rest.length := by simpa using hk
      have ha : a.destination ≠ j := by
        have := hfirst 0 (by simp) (Nat.succ_pos k)
        simpa using this
      simp only [chercherPoids]
      rw [if_neg ha]
      have := ih k hk' (by simpa using hmatch)
        (fun m hm hmk => by
          have := hfirst (m + 1) (by simpa using hm) (by omega)
          simpa using this)
      simpa using this

/-- C6 (amended): for a vertex i with adjacency list l and a valid
destination j: removeArc removes exactly the last (most recently
inserted) matching arc and decrements the arc count; getWeight returns
the weight of the first (earliest inserted) matching arc; and when no
matching arc remains, removeArc fails with listeVide when l is empty and
with arcInexistant otherwise. -/
theorem C6_amended (g : Graphe) (i j : Nat) (l : List Arc)
    (hl : g.m_listesAdj[i]? = some l) (hj : j < g.m_listesAdj.length) :
    (∀ k (hk : k < l.length), (l.get ⟨k, hk⟩).destination = j →
      (∀ m (hm : m < l.length), k < m → (l.get ⟨m, hm⟩).destination ≠ j) →
      g.enleverArc i j =
        .ok { m_listesAdj := g.m_listesAdj.set i (l.take k ++ l.drop (k + 1)),
              m_nbArcs := g.m_nbArcs - 1 }) ∧
    (∀ k (hk : k < l.length), (l.get ⟨k, hk⟩).destination = j →
      (∀ m (hm : m < l.length), m < k → (l.get ⟨m, hm⟩).destination ≠ j) →
      g.getPoids i j = .ok (l.get ⟨k, hk⟩).poids) ∧
    ((∀ a ∈ l, a.destination ≠ j) →
      g.enleverArc i j = .error (if l = [] then GErr.listeVide else GErr.arcInexistant)) := by
  have hi : i < g.m_listesAdj.length := by
    by_contra hcon
    rw [List.getElem?_eq_none (by omega)] at hl
    exact Option.noConfusion hl
  have hgetD : g.m_listesAdj.getD i [] = l := by
    rw [List.getD_eq_getElem?_getD, hl]
    rfl
  refine ⟨?_, ?_, ?_⟩
  · intro k hk hmatch hlast
    unfold Graphe.enleverArc
    rw [if_neg (by omega), if_neg (by omega), hgetD]
    rw [if_neg (by intro hnil; rw [hnil] at hk; simp at hk)]
    rw [enleverDernier_last_match l j k hk hmatch hlast]
  · intro k hk hmatch hfirst
    unfold Graphe.getPoids
    rw [if_neg (by omega), hgetD]
    exact chercherPoids_first_match l j k hk hmatch hfirst
  · intro hnomatch
    unfold Graphe.enleverArc
    rw [if_neg (by omega), if_neg (by omega), hgetD]
    by_cases hnil : l = []
    · rw [if_pos hnil, if_pos hnil]
    · rw [if_neg hnil, if_neg hnil, enleverDernier_none l j hnomatch]

/-- C6 witness: on the concrete graph with arcs (0,1,5), (0,2,7), (0,1,6)
in insertion order, removeArc(0,1) removes the last-inserted (0,1,6) and
getWeight(0,1) reports the earliest-inserted weight 5. -/
theorem C6_amended_witness :
    Graphe.enleverArc grapheParallele 0 1 =
      .ok { m_listesAdj := [[⟨1, 5⟩, ⟨2, 7⟩], [], []], m_nbArcs := 2 } ∧
    Graphe.getPoids grapheParallele 0 1 = .ok 5 := by
  have h := C6_amended grapheParallele 0 1 [⟨1, 5⟩, ⟨2, 7⟩, ⟨1, 6⟩] rfl (by decide)
  constructor
  · have h1 := h.1 2 (by decide) (by decide)
      (by
        intro m hm hmk
        exfalso
        simp only [List.length_cons, List.length_nil] at hm
        omega)
    simpa using h1
  · have h2 := h.2.1 0 (by decide) (by decide)
      (fun m hm hm0 => absurd hm0 (by omega))
    simpa using h2

/-- C8: resize semantics. Shrinking to t below the vertex count removes
exactly the trailing adjacency lists and decreases the arc count by
exactly the total out-degree of the removed vertices (arcs into removed
vertices are not considered); growing appends only empty adjacency lists
and keeps the arc count. Stated for graphs satisfying the arc-count
invariant (every graph reachable through the interface, by
C5_arcCount_invariant). -/
theorem C8_resize (g : Graphe) (t : Nat) (h : bonCompteArcs g) :
    (t < g.m_listesAdj.length →
      (g.resize t).m_nbArcs + ((g.m_listesAdj.drop t).map List.length).sum = g.m_nbArcs ∧
      (g.resize t).m_listesAdj = g.m_listesAdj.take t) ∧
    (g.m_listesAdj.length ≤ t →
      (g.resize t).m_nbArcs = g.m_nbArcs ∧
      (g.resize t).m_listesAdj =
        g.m_listesAdj ++ List.replicate (t - g.m_listesAdj.length) []) := by
  rw [bonCompteArcs] at h
  constructor
  · intro ht
    unfold Graphe.resize
    rw [if_pos ht]
    refine ⟨?_, rfl⟩
    show g.m_nbArcs - ((g.m_listesAdj.drop t).map List.length).sum + _ = _
    have hsplit : (g.m_listesAdj.map List.length).sum =
        ((g.m_listesAdj.take t).map List.length).sum +
        ((g.m_listesAdj.drop t).map List.length).sum := by
      conv_lhs => rw [← List.take_append_drop t g.m_listesAdj]
      simp
    omega
  · intro ht
    unfold Graphe.resize
    rw [if_neg (by omega)]
    exact ⟨rfl, rfl⟩

/-- C8 witness: resizing the three-vertex cyclic graph down to one vertex
drops the two arcs leaving the removed vertices 1 and 2 and keeps the
adjacency list of the surviving vertex 0. -/
theorem C8_resize_witness :
    (grapheCyclique.resize 1).m_nbArcs +
        ((grapheCyclique.m_listesAdj.drop 1).map List.length).sum =
      grapheCyclique.m_nbArcs ∧
    (grapheCyclique.resize 1).m_listesAdj = grapheCyclique.m_listesAdj.take 1 :=
  (C8_resize grapheCyclique 1 (by decide)).1 (by decide)

/-- helper: a some answer of an index read certifies the bound. -/
theorem getElem?_some_lt {α : Type} (l : List α) (k : Nat) (x : α)
    (h : l[k]? = some x) : k < l.length := by
  by_contra hc
  rw [List.getElem?_eq_none (by omega)] at h
  exact Option.noConfusion h

/-- helper: the unvisited count never exceeds the array length. -/
theorem countFalse_le_length (l : List Bool) : countFalse l ≤ l.length := by
  induction l with
  | nil => simp [countFalse]
  | cons b rest ih =>
    simp only [countFalse, List.length_cons]
    cases b <;> simp <;> omega

/-- helper: the unvisited count of the all-false array is its length. -/
theorem countFalse_replicate_false (n : Nat) :
    countFalse (List.replicate n false) = n := by
  induction n with
  | zero => rfl
  | succ n ih =>
    simp [List.replicate_succ, countFalse, ih]
    omega

/-- helper: marking an unvisited vertex decreases the unvisited count by
exactly one. -/
theorem countFalse_set_true (l : List Bool) (v : Nat) (h : l[v]? = some false) :
    countFalse (l.set v true) + 1 = countFalse l := by
  induction l generalizing v with
  | nil => simp at h
  | cons b rest ih =>
    cases v with
    | zero =>
      simp at h
      simp [List.set, countFalse, h]
      omega
    | succ v =>
      simp only [List.getElem?_cons_succ] at h
      simp only [List.set, countFalse]
      have := ih v h
      omega

/-- helper: an array whose every entry reads true has no unvisited entry. -/
theorem countFalse_eq_zero_of_all_true (l : List Bool)
    (h : ∀ k, k < l.length → l[k]? = some true) : countFalse l = 0 := by
  induction l with
  | nil => rfl
  | cons b rest ih =>
    have h0 := h 0 (by simp)
    simp at h0
    have hrec := ih (fun k hk => by
      have := h (k + 1) (by simp; omega)
      simpa using this)
    simp [countFalse, h0, hrec]

/-- helper: TopoPost is reflexive. -/
theorem TopoPost_refl (n : Nat) (st : List Bool × List Nat) : TopoPost n st st :=
  ⟨rfl, Nat.le_refl _, rfl, fun _ h => h, fun _ hx => Or.inr hx⟩

/-- helper: TopoPost composes. -/
theorem TopoPost_trans (n : Nat) (s1 s2 s3 : List Bool × List Nat)
    (h1 : TopoPost n s1 s2) (h2 : TopoPost n s2 s3) : TopoPost n s1 s3 := by
  obtain ⟨hl1, hc1, he1, hp1, hs1⟩ := h1
  obtain ⟨hl2, hc2, he2, hp2, hs2⟩ := h2
  refine ⟨hl1 ▸ hl2, Nat.le_trans hc2 hc1, by omega, fun k hk => hp2 k (hp1 k hk), ?_⟩
  intro x hx
  rcases hs2 x hx with h | h
  · exact Or.inl h
  · exact hs1 x h

/-- helper: specification of the inner DFS arc loop, parameterized by the
behavior of the recursive visit at the current fuel level. -/
theorem topoArcsGo_spec (g : Graphe) (n : Nat) (fuel : Nat)
    (IH : ∀ v st, st.1.length = n → countFalse st.1 < fuel → v < n →
      st.1[v]? = some false →
      ∃ st', topologicalSortUtil g fuel v st = .ok st' ∧ TopoPost n st st' ∧
        st'.1[v]? = some true) :
    ∀ arcs (st : List Bool × List Nat), (∀ a ∈ arcs, a.destination < n) →
      st.1.length = n → countFalse st.1 < fuel →
      ∃ st', topoArcsGo (fun w s => topologicalSortUtil g fuel w s) arcs st = .ok st' ∧
        TopoPost n st st' := by
  intro arcs
  induction arcs with
  | nil =>
    intro st _ _ _
    exact ⟨st, rfl, TopoPost_refl n st⟩
  | cons a rest ih =>
    intro st hdest hlen hcf
    have hda : a.destination < n := hdest a (List.mem_cons_self a rest)
    have hread : st.1[a.destination]? = some (st.1.get ⟨a.destination, by omega⟩) := by
      rw [List.getElem?_eq_getElem (by omega)]
      rfl
    cases hb : st.1.get ⟨a.destination, by omega⟩ with
    | true =>
      rw [hb] at hread
      obtain ⟨st', hrun, hpost⟩ :=
        ih st (fun b hb' => hdest b (List.mem_cons_of_mem a hb')) hlen hcf
      refine ⟨st', ?_, hpost⟩
      simp only [topoArcsGo, hread]
      simpa using hrun
    | false =>
      rw [hb] at hread
      obtain ⟨st1, hvisit, hpost1, _⟩ := IH a.destination st hlen hcf hda hread
      obtain ⟨st', hrun, hpost2⟩ := ih st1
        (fun b hb' => hdest b (List.mem_cons_of_mem a hb'))
        (hpost1.1.trans hlen) (Nat.lt_of_le_of_lt hpost1.2.1 hcf)
      refine ⟨st', ?_, TopoPost_trans n st st1 st' hpost1 hpost2⟩
      simp only [topoArcsGo, hread, hvisit]
      simpa using hrun

/-- helper: full specification of Graphe::topologicalSortUtil on a
well-formed graph: called with enough fuel on an unvisited valid vertex,
it succeeds, relates input and output states by TopoPost, and marks the
vertex visited. -/
theorem topologicalSortUtil_spec (g : Graphe) (hwf : sommetsValides g) :
    ∀ fuel v st, st.1.length = g.m_listesAdj.length →
      countFalse st.1 < fuel → v < g.m_listesAdj.length →
      st.1[v]? = some false →
      ∃ st', topologicalSortUtil g fuel v st = .ok st' ∧
        TopoPost g.m_listesAdj.length st st' ∧ st'.1[v]? = some true := by
  intro fuel
  induction fuel with
  | zero =>
    intro v st _ hcf _ _
    exact absurd hcf (by omega)
  | succ fuel ih =>
    intro v st hlen hcf hv hfalse
    have hadj : g.m_listesAdj[v]? = some g.m_listesAdj[v] :=
      List.getElem?_eq_getElem hv
    have hdest : ∀ a ∈ g.m_listesAdj[v], a.destination < g.m_listesAdj.length :=
      fun a ha => hwf g.m_listesAdj[v] (List.getElem_mem hv) a ha
    have hcf1 : countFalse (st.1.set v true) + 1 = countFalse st.1 :=
      countFalse_set_true st.1 v hfalse
    obtain ⟨st2, hrun, hpost⟩ := topoArcsGo_spec g g.m_listesAdj.length fuel
      (fun w s hl hc hw hf => ih w s hl hc hw hf)
      g.m_listesAdj[v] (st.1.set v true, st.2) hdest
      (by dsimp only; simpa using hlen) (by dsimp only; omega)
    have hmark1 : (st.1.set v true)[v]? = some true :=
      List.getElem?_set_eq_of_lt true (by omega)
    have hmark2 : st2.1[v]? = some true := hpost.2.2.2.1 v hmark1
    refine ⟨(st2.1, v :: st2.2), ?_, ?_, hmark2⟩
    · simp only [topologicalSortUtil, hfalse, hadj, hrun]
    · obtain ⟨hl2, hc2, he2, hp2, hs2⟩ := hpost
      dsimp only at hl2 hc2 he2
      refine ⟨by simpa using hl2, ?_, ?_, ?_, ?_⟩
      · show countFalse st2.1 ≤ countFalse st.1
        omega
      · show st2.2.length + 1 + countFalse st2.1 = st.2.length + countFalse st.1
        omega
      · intro k hk
        apply hp2
        by_cases hkv : v = k
        · subst hkv
          exact hmark1
        · rw [List.getElem?_set_ne hkv]
          exact hk
      · intro x hx
        rcases List.mem_cons.mp hx with h | h
        · exact Or.inl (h ▸ hv)
        · rcases hs2 x h with h' | h'
          · exact Or.inl h'
          · exact Or.inr h'

/-- helper: specification of the outer loop that launches the DFS from
every not-yet-visited vertex index. -/
theorem topoLoop_spec (g : Graphe) (hwf : sommetsValides g) :
    ∀ is (st : List Bool × List Nat), (∀ i ∈ is, i < g.m_listesAdj.length) →
      st.1.length = g.m_listesAdj.length →
      ∃ st', topoLoop g is st = .ok st' ∧ TopoPost g.m_listesAdj.length st st' ∧
        ∀ i ∈ is, st'.1[i]? = some true := by
  intro is
  induction is with
  | nil =>
    intro st _ _
    exact ⟨st, rfl, TopoPost_refl _ st, by simp⟩
  | cons i rest ih =>
    intro st his hlen
    have hi : i < g.m_listesAdj.length := his i (List.mem_cons_self i rest)
    have hread : st.1[i]? = some (st.1.get ⟨i, by omega⟩) := by
      rw [List.getElem?_eq_getElem (by omega)]
      rfl
    cases hb : st.1.get ⟨i, by omega⟩ with
    | true =>
      rw [hb] at hread
      obtain ⟨st', hrun, hpost, hmarks⟩ :=
        ih st (fun k hk => his k (List.mem_cons_of_mem i hk)) hlen
      refine ⟨st', ?_, hpost, ?_⟩
      · simp only [topoLoop, hread]
        simpa using hrun
      · intro k hk
        rcases List.mem_cons.mp hk with h | h
        · exact h ▸ hpost.2.2.2.1 i hread
        · exact hmarks k h
    | false =>
      rw [hb] at hread
      obtain ⟨st1, hvisit, hpost1, hmark1⟩ := topologicalSortUtil_spec g hwf
        (g.m_listesAdj.length + 1) i st hlen
        (by have := countFalse_le_length st.1; omega) hi hread
      obtain ⟨st', hrun, hpost2, hmarks⟩ := ih st1
        (fun k hk => his k (List.mem_cons_of_mem i hk)) (hpost1.1.trans hlen)
      refine ⟨st', ?_, TopoPost_trans _ st st1 st' hpost1 hpost2, ?_⟩
      · simp only [topoLoop, hread, hvisit]
        simpa using hrun
      · intro k hk
        rcases List.mem_cons.mp hk with h | h
        · exact h ▸ hpost2.2.2.2.1 i hmark1
        · exact hmarks k h

/-- helper: the complete DFS phase of plusCourtChemin on a well-formed
graph succeeds and produces a stack holding every vertex exactly once:
its length is the vertex count and all entries are valid vertices. -/
theorem topoPhase (g : Graphe) (hwf : sommetsValides g) :
    ∃ st : List Bool × List Nat,
      topoLoop g (List.range g.m_listesAdj.length)
        (List.replicate g.m_listesAdj.length false, []) = .ok st ∧
      st.2.length = g.m_listesAdj.length ∧
      ∀ x ∈ st.2, x < g.m_listesAdj.length := by
  obtain ⟨st', hrun, hpost, hmarks⟩ := topoLoop_spec g hwf
    (List.range g.m_listesAdj.length)
    (List.replicate g.m_listesAdj.length false, [])
    (fun i hi => List.mem_range.mp hi)
    (by simp)
  obtain ⟨hl, hc, he, hp, hs⟩ := hpost
  dsimp only at hl hc he hp hs
  have hall : countFalse st'.1 = 0 := by
    apply countFalse_eq_zero_of_all_true
    intro k hk
    apply hmarks
    apply List.mem_range.mpr
    have : st'.1.length = g.m_listesAdj.length := by simpa using hl
    omega
  refine ⟨st', hrun, ?_, ?_⟩
  · rw [countFalse_replicate_false] at he
    simp only [List.length_nil] at he
    omega
  · intro x hx
    rcases hs x hx with h | h
    · exact h
    · simp at h

/-- helper: specification of the inner relaxation loop: with in-bounds
arcs and vertex it cannot fail, it preserves the lengths of dist and
predecesseur, and it never touches an entry whose distance is 0 (no
update can beat distance 0, all weights being non-negative). -/
theorem relaxArcs_spec (u : Nat) :
    ∀ (arcs : List Arc) (dist pred : List Nat),
      (∀ a ∈ arcs, a.destination < dist.length) → u < dist.length →
      ∃ dp : List Nat × List Nat, relaxArcs u arcs dist pred = .ok dp ∧
        dp.1.length = dist.length ∧ dp.2.length = pred.length ∧
        ∀ o : Nat, dist[o]? = some 0 → dp.1[o]? = some 0 ∧ dp.2[o]? = pred[o]? := by
  intro arcs
  induction arcs with
  | nil =>
    intro dist pred _ _
    exact ⟨(dist, pred), rfl, rfl, rfl, fun o h => ⟨h, rfl⟩⟩
  | cons a rest ih =>
    intro dist pred hdest hu
    have hda : a.destination < dist.length := hdest a (List.mem_cons_self a rest)
    have hreada : dist[a.destination]? = some dist[a.destination] :=
      List.getElem?_eq_getElem hda
    have hreadu : dist[u]? = some dist[u] := List.getElem?_eq_getElem hu
    by_cases hcond : dist[a.destination] > (dist[u] + a.poids) % 2 ^ 64
    · obtain ⟨dp, hrun, hl1, hl2, hzero⟩ := ih
        (dist.set a.destination ((dist[u] + a.poids) % 2 ^ 64))
        (pred.set a.destination u)
        (by
          intro b hb
          have := hdest b (List.mem_cons_of_mem a hb)
          simpa using this)
        (by simpa using hu)
      refine ⟨dp, ?_, by simpa using hl1, by simpa using hl2, ?_⟩
      · simp only [relaxArcs, hreada, hreadu, if_pos hcond]
        exact hrun
      · intro o ho
        have hne : a.destination ≠ o := by
          intro heq
          subst heq
          have h0 : dist[a.destination] = 0 := Option.some_inj.mp (hreada.symm.trans ho)
          rw [h0] at hcond
          omega
        obtain ⟨hz1, hz2⟩ := hzero o (by rw [List.getElem?_set_ne hne]; exact ho)
        refine ⟨hz1, ?_⟩
        rw [hz2, List.getElem?_set_ne hne]
    · obtain ⟨dp, hrun, hl1, hl2, hzero⟩ := ih dist pred
        (fun b hb => hdest b (List.mem_cons_of_mem a hb)) hu
      refine ⟨dp, ?_, hl1, hl2, hzero⟩
      simp only [relaxArcs, hreada, hreadu, if_neg hcond]
      exact hrun

/-- helper: the main relaxation loop succeeds when the whole stack fits
under the 150000-iteration budget; it keeps the array lengths and leaves
distance-0 entries and their predecessors untouched. -/
theorem processStack_ok (g : Graphe) (hwf : sommetsValides g) :
    ∀ (stack : List Nat) (dist pred : List Nat) (cunter : Nat),
      (∀ x ∈ stack, x < g.m_listesAdj.length) →
      dist.length = g.m_listesAdj.length →
      cunter + stack.length ≤ 150000 →
      ∃ dp : List Nat × List Nat, processStack g stack dist pred cunter = .ok dp ∧
        dp.1.length = dist.length ∧ dp.2.length = pred.length ∧
        ∀ o : Nat, dist[o]? = some 0 → dp.1[o]? = some 0 ∧ dp.2[o]? = pred[o]? := by
  intro stack
  induction stack with
  | nil =>
    intro dist pred cunter _ _ _
    exact ⟨(dist, pred), rfl, rfl, rfl, fun o h => ⟨h, rfl⟩⟩
  | cons u rest ih =>
    intro dist pred cunter hstk hdlen hcnt
    have hu : u < dist.length := by
      have := hstk u (List.mem_cons_self u rest)
      omega
    have hreadu : dist[u]? = some dist[u] := List.getElem?_eq_getElem hu
    have hadj : g.m_listesAdj[u]? = some g.m_listesAdj[u] :=
      List.getElem?_eq_getElem (by omega)
    have hstep : ∃ mid : List Nat × List Nat,
        (if dist[u] ≠ INF then
          match g.m_listesAdj[u]? with
          | none => .error .ub
          | some arcs => relaxArcs u arcs dist pred
        else .ok (dist, pred) : Except GErr (List Nat × List Nat)) = .ok mid ∧
        mid.1.length = dist.length ∧ mid.2.length = pred.length ∧
        ∀ o : Nat, dist[o]? = some 0 → mid.1[o]? = some 0 ∧ mid.2[o]? = pred[o]? := by
      by_cases hinf : dist[u] ≠ INF
      · obtain ⟨mid, hrun, hl1, hl2, hz⟩ := relaxArcs_spec u g.m_listesAdj[u] dist pred
          (fun a ha => by
            have := hwf g.m_listesAdj[u] (List.getElem_mem (by omega)) a ha
            omega) hu
        exact ⟨mid, by rw [if_pos hinf, hadj]; exact hrun, hl1, hl2, hz⟩
      · exact ⟨(dist, pred), by rw [if_neg hinf], rfl, rfl, fun o h => ⟨h, rfl⟩⟩
    obtain ⟨mid, hmid, hml1, hml2, hmz⟩ := hstep
    have hnc : ¬(cunter + 1 > 150000) := by
      simp only [List.length_cons] at hcnt
      omega
    obtain ⟨dp, hrun, hl1, hl2, hz⟩ := ih mid.1 mid.2 (cunter + 1)
      (fun x hx => hstk x (List.mem_cons_of_mem u hx))
      (by omega)
      (by simp only [List.length_cons] at hcnt; omega)
    refine ⟨dp, ?_, by omega, ?_, ?_⟩
    · simp only [processStack, hreadu, hmid, if_neg hnc]
      exact hrun
    · rw [hl2, hml2]
    · intro o ho
      obtain ⟨hm1, hm2⟩ := hmz o ho
      obtain ⟨hd1, hd2⟩ := hz o hm1
      exact ⟨hd1, by rw [hd2, hm2]⟩

/-- helper: the main relaxation loop throws the generic exception exactly
when the remaining stack pushes the iteration counter past 150000
(given in-bounds state so that no UB interferes). -/
theorem processStack_generic (g : Graphe) (hwf : sommetsValides g) :
    ∀ (stack : List Nat) (dist pred : List Nat) (cunter : Nat),
      (∀ x ∈ stack, x < g.m_listesAdj.length) →
      dist.length = g.m_listesAdj.length →
      cunter ≤ 150000 → 150000 < cunter + stack.length →
      processStack g stack dist pred cunter = .error .generic := by
  intro stack
  induction stack with
  | nil =>
    intro dist pred cunter _ _ hle hgt
    simp only [List.length_nil] at hgt
    omega
  | cons u rest ih =>
    intro dist pred cunter hstk hdlen hle hgt
    have hu : u < dist.length := by
      have := hstk u (List.mem_cons_self u rest)
      omega
    have hreadu : dist[u]? = some dist[u] := List.getElem?_eq_getElem hu
    have hadj : g.m_listesAdj[u]? = some g.m_listesAdj[u] :=
      List.getElem?_eq_getElem (by omega)
    have hstep : ∃ mid : List Nat × List Nat,
        (if dist[u] ≠ INF then
          match g.m_listesAdj[u]? with
          | none => .error .ub
          | some arcs => relaxArcs u arcs dist pred
        else .ok (dist, pred) : Except GErr (List Nat × List Nat)) = .ok mid ∧
        mid.1.length = dist.length := by
      by_cases hinf : dist[u] ≠ INF
      · obtain ⟨mid, hrun, hl1, _, _⟩ := relaxArcs_spec u g.m_listesAdj[u] dist pred
          (fun a ha => by
            have := hwf g.m_listesAdj[u] (List.getElem_mem (by omega)) a ha
            omega) hu
        exact ⟨mid, by rw [if_pos hinf, hadj]; exact hrun, hl1⟩
      · exact ⟨(dist, pred), by rw [if_neg hinf], rfl⟩
    obtain ⟨mid, hmid, hml1⟩ := hstep
    by_cases hth : cunter + 1 > 150000
    · simp only [processStack, hreadu, hmid, if_pos hth]
    · simp only [processStack, hreadu, hmid, if_neg hth]
      apply ih mid.1 mid.2 (cunter + 1)
        (fun x hx => hstk x (List.mem_cons_of_mem u hx))
        (by omega) (by omega)
      simp only [List.length_cons] at hgt
      omega

/-- helper: constructed graphs have no arcs, hence no dangling arcs. -/
theorem sommetsValides_construct (n : Nat) : sommetsValides (Graphe.construct n) := by
  intro l hl a ha
  have hnil : l = [] := List.eq_of_mem_replicate hl
  subst hnil
  simp at ha

/-- helper: the constructed graph has exactly n vertices. -/
theorem getNbSommets_construct (n : Nat) : (Graphe.construct n).getNbSommets = n := by
  simp [Graphe.construct, Graphe.getNbSommets]

/-- C7 (amended): on every graph whose arcs all point to existing
vertices and with at most 150000 vertices, plusCourtChemin(v, v) returns
distance 0 and the single-vertex path [v] for every valid v. (Beyond
150000 vertices the iteration guard throws, see C7_counterexample; with
dangling arcs the DFS reads out of bounds.) -/
theorem C7_amended (g : Graphe) (v : Nat) (hwf : sommetsValides g)
    (hV : g.getNbSommets ≤ 150000) (hv : v < g.getNbSommets) :
    g.plusCourtChemin v v [] = .ok (0, [v]) := by
  rw [Graphe.getNbSommets] at hV hv
  obtain ⟨st, htopo, hslen, hsval⟩ := topoPhase g hwf
  obtain ⟨dp, hps, hl1, hl2, hz⟩ := processStack_ok g hwf st.2
    ((List.replicate g.m_listesAdj.length INF).set v 0)
    (List.replicate g.m_listesAdj.length INF) 0 hsval
    (by simp)
    (by omega)
  have hd0 : ((List.replicate g.m_listesAdj.length INF).set v 0)[v]? = some 0 :=
    List.getElem?_set_eq_of_lt 0 (by simpa using hv)
  obtain ⟨hz1, hz2⟩ := hz v hd0
  have hz2' : dp.2[v]? = some INF := by
    rw [hz2]
    simp [List.getElem?_replicate, hv]
  have hrem : remonterChemin dp.2 150001 v [v] 0 = .ok [v] := by
    rw [remonterChemin, hz2']
    simp
  simp only [Graphe.plusCourtChemin, htopo, if_pos hv, hps, hz2', hrem, hz1]
  simp

/-- C7 witness: on the concrete cyclic graph, plusCourtChemin(0, 0)
returns distance 0 and path [0]. -/
theorem C7_amended_witness :
    Graphe.plusCourtChemin grapheCyclique 0 0 [] = .ok (0, [0]) :=
  C7_amended grapheCyclique 0 (by decide) (by decide) (by decide)

/-- helper: on a well-formed graph with a valid origin, whenever the
main relaxation loop aborts with the generic counter exception, the whole
routine does (the destination and output buffer are never consulted). -/
theorem plusCourtChemin_generic_of_surcharge (g : Graphe) (o d : Nat) (ch : List Nat)
    (hwf : sommetsValides g) (hV : 150000 < g.m_listesAdj.length)
    (ho : o < g.m_listesAdj.length) :
    g.plusCourtChemin o d ch = .error .generic := by
  obtain ⟨st, htopo, hslen, hsval⟩ := topoPhase g hwf
  have hgen := processStack_generic g hwf st.2
    ((List.replicate g.m_listesAdj.length INF).set o 0)
    (List.replicate g.m_listesAdj.length INF) 0 hsval
    (by simp) (by omega) (by omega)
  simp only [Graphe.plusCourtChemin, htopo, if_pos ho, hgen]

/-- helper: on a well-formed graph, an out-of-range origin leads to the
out-of-bounds write dist[p_origine] = 0, that is, undefined behavior,
right after the DFS phase. -/
theorem plusCourtChemin_ub_of_origine (g : Graphe) (o d : Nat) (ch : List Nat)
    (hwf : sommetsValides g) (ho : ¬o < g.m_listesAdj.length) :
    g.plusCourtChemin o d ch = .error .ub := by
  obtain ⟨st, htopo, _, _⟩ := topoPhase g hwf
  simp only [Graphe.plusCourtChemin, htopo, if_neg ho]

/-- C7 counterexample: the claim quantifies over every graph, but on the
constructed graph with 150001 vertices the main loop aborts with the
generic counter exception instead of returning (0, [0]) for
plusCourtChemin(0, 0). -/
theorem C7_counterexample :
    Graphe.plusCourtChemin (Graphe.construct 150001) 0 0 [] = .error .generic ∧
    (Except.error GErr.generic : Except GErr (Nat × List Nat)) ≠ .ok (0, [0]) := by
  have hlen : (Graphe.construct 150001).m_listesAdj.length = 150001 :=
    List.length_replicate 150001 []
  constructor
  · apply plusCourtChemin_generic_of_surcharge (Graphe.construct 150001) 0 0 []
      (sommetsValides_construct 150001)
    · rw [hlen]
      omega
    · rw [hlen]
      omega
  · intro h
    exact Except.noConfusion h

/-- C9 (amended): on every graph with more than 150000 vertices whose
arcs all point to existing vertices, plusCourtChemin throws the generic
counter exception for every valid origin and arbitrary destination and
output buffer: the main loop runs once per vertex and aborts past 150000
iterations, before the destination is ever used. (For an out-of-range
origin the out-of-bounds write dist[origin] = 0 happens first, see
C9_counterexample.) -/
theorem C9_amended (g : Graphe) (o d : Nat) (ch : List Nat) (hwf : sommetsValides g)
    (hV : 150000 < g.getNbSommets) (ho : o < g.getNbSommets) :
    g.plusCourtChemin o d ch = .error .generic := by
  rw [Graphe.getNbSommets] at hV ho
  exact plusCourtChemin_generic_of_surcharge g o d ch hwf hV ho

/-- C9 witness: the constructed graph with 150001 vertices, valid origin
1 and destination 2, aborts with the generic exception. -/
theorem C9_amended_witness :
    Graphe.plusCourtChemin (Graphe.construct 150001) 1 2 [] = .error .generic :=
  C9_amended (Graphe.construct 150001) 1 2 [] (sommetsValides_construct 150001)
    (by rw [getNbSommets_construct]; omega)
    (by rw [getNbSommets_construct]; omega)

/-- C9 counterexample: the claim quantifies over every origin and
destination, but with the out-of-range origin 150001 the routine hits the
out-of-bounds write dist[p_origine] = 0 (undefined behavior) before the
counter guard, so no generic exception is thrown. -/
theorem C9_counterexample :
    Graphe.plusCourtChemin (Graphe.construct 150001) 150001 0 [] = .error .ub ∧
    GErr.ub ≠ GErr.generic := by
  have hlen : (Graphe.construct 150001).m_listesAdj.length = 150001 :=
    List.length_replicate 150001 []
  constructor
  · apply plusCourtChemin_ub_of_origine (Graphe.construct 150001) 150001 0 []
      (sommetsValides_construct 150001)
    rw [hlen]
    omega
  · decide
